import Mathlib

/-!
Verification of the resource-centric storage layout and LDP lifecycle engine
(lakesuperior core: `lakesuperior/model/ldpr.py` and
`lakesuperior/store_layouts/ldp_rs/rsrc_centric_layout.py`).

The Python classes are shallowly embedded: RDF terms become an inductive
`Term`, rdflib graphs become `Finset Triple`, the quad store becomes a
function from named-graph identifiers to triple sets, and each method is
translated into an executable Lean function over that state.
-/

/-- RDF namespace tags used by the repository (`nsc` collection).
`ext` stands for any URI outside the closed repository namespaces. -/
inductive NS
  | fcres | fcadmin | fcmain | fcstruct | fcsystem
  | fcrepo | ldp | premis | pcdm | iana | foaf | rdf | ext
deriving DecidableEq

/-- An RDF term: a URI (namespace tag plus local name), a literal, or a
`urn:sha1:` digest URI carrying the checksum value computed by
`rdf_cksum`.  The checksum is modelled as the canonical content of the
checksummed graph (a multiset of triple keys): order-insensitive but
sensitive to any triple change, as §4.2 of the spec requires. -/
inductive Term
  | iri (ns : NS) (nm : String)
  | lit (v : String)
  | sha1 (cksum : Multiset Nat)
deriving DecidableEq

/-- An RDF triple (subject, predicate, object). -/
abbrev Triple := Term × Term × Term

def predOf (t : Triple) : Term := t.2.1

def objOf (t : Triple) : Term := t.2.2

def rdf_type : Term := .iri .rdf "type"

def fcrepo_created : Term := .iri .fcrepo "created"

def fcrepo_createdBy : Term := .iri .fcrepo "createdBy"

def fcrepo_hasParent : Term := .iri .fcrepo "hasParent"

def fcrepo_hasVersion : Term := .iri .fcrepo "hasVersion"

def fcrepo_hasVersions : Term := .iri .fcrepo "hasVersions"

def fcrepo_hasVersionLabel : Term := .iri .fcrepo "hasVersionLabel"

def fcrepo_lastModified : Term := .iri .fcrepo "lastModified"

def fcrepo_lastModifiedBy : Term := .iri .fcrepo "lastModifiedBy"

def fcrepo_contains : Term := .iri .fcrepo "contains"

def fcrepo_Binary : Term := .iri .fcrepo "Binary"

def fcrepo_Container : Term := .iri .fcrepo "Container"

def fcrepo_Pairtree : Term := .iri .fcrepo "Pairtree"

def fcrepo_Resource : Term := .iri .fcrepo "Resource"

def ldp_membershipResource : Term := .iri .ldp "membershipResource"

def ldp_hasMemberRelation : Term := .iri .ldp "hasMemberRelation"

def ldp_insertedContentRelation : Term := .iri .ldp "insertedContentRelation"

def ldp_contains : Term := .iri .ldp "contains"

def ldp_BasicContainer : Term := .iri .ldp "BasicContainer"

def ldp_Container : Term := .iri .ldp "Container"

def ldp_DirectContainer : Term := .iri .ldp "DirectContainer"

def ldp_IndirectContainer : Term := .iri .ldp "IndirectContainer"

def ldp_NonRDFSource : Term := .iri .ldp "NonRDFSource"

def ldp_RDFSource : Term := .iri .ldp "RDFSource"

def ldp_Resource : Term := .iri .ldp "Resource"

def iana_describedBy : Term := .iri .iana "describedBy"

def premis_hasMessageDigest : Term := .iri .premis "hasMessageDigest"

def premis_hasSize : Term := .iri .premis "hasSize"

def pcdm_hasMember : Term := .iri .pcdm "hasMember"

def fcsystem_contains : Term := .iri .fcsystem "contains"

def fcsystem_fragmentOf : Term := .iri .fcsystem "fragmentOf"

def fcsystem_tombstone : Term := .iri .fcsystem "tombstone"

def fcsystem_Tombstone : Term := .iri .fcsystem "Tombstone"

def fcsystem_root : Term := .iri .fcsystem "root"

def foaf_primaryTopic : Term := .iri .foaf "primaryTopic"

/-- `nsc['fcres'][uid]`, the internal URN of the resource with this uid. -/
def fcres (uid : String) : Term := .iri .fcres uid

/-- `RsrcCentricLayout.attr_map[nsc['fcadmin']]['p']`: predicates routed to
the admin graph. -/
def adminPreds : Finset Term :=
  {fcrepo_created, fcrepo_createdBy, fcrepo_hasParent, fcrepo_lastModified,
   fcrepo_lastModifiedBy, ldp_membershipResource, ldp_hasMemberRelation,
   ldp_insertedContentRelation, iana_describedBy, premis_hasMessageDigest,
   premis_hasSize}

/-- `RsrcCentricLayout.attr_map[nsc['fcadmin']]['t']`: `rdf:type` objects
routed to the admin graph. -/
def adminTypes : Finset Term :=
  {fcrepo_Binary, fcrepo_Container, fcrepo_Pairtree, fcrepo_Resource,
   ldp_BasicContainer, ldp_Container, ldp_DirectContainer,
   ldp_IndirectContainer, ldp_NonRDFSource, ldp_RDFSource, ldp_Resource}

/-- `RsrcCentricLayout.attr_map[nsc['fcstruct']]['p']`: predicates routed to
the struct graph. -/
def structPreds : Finset Term :=
  {fcsystem_contains, ldp_contains, pcdm_hasMember}

/-- Identifier of a named graph in the quad store: the three per-resource
graph families (with optional version qualifier), the discovery graph
`fcsystem:meta` and the history graph `fcsystem:historic`. -/
inductive GraphId
  | admin (uid : String) (ver : Option String)
  | main (uid : String) (ver : Option String)
  | strct (uid : String) (ver : Option String)
  | meta
  | historic
deriving DecidableEq

/-- The quad store: contents of each named graph. -/
def Store := GraphId → Finset Triple

/-- The URI naming a graph, as used inside `META_GR` registration triples
(`RsrcCentricLayout._admin_uri` / `_main_uri` / `_struct_uri`, where a
version uid is appended after a colon). -/
def graphTerm : GraphId → Term
  | .admin uid none => .iri .fcadmin uid
  | .admin uid (some v) => .iri .fcadmin (uid ++ ":" ++ v)
  | .main uid none => .iri .fcmain uid
  | .main uid (some v) => .iri .fcmain (uid ++ ":" ++ v)
  | .strct uid none => .iri .fcstruct uid
  | .strct uid (some v) => .iri .fcstruct (uid ++ ":" ++ v)
  | .meta => .iri .fcsystem "meta"
  | .historic => .iri .fcsystem "historic"

/-- `RsrcCentricLayout._map_graph_uri(t, uid)`: destination graph of a
triple.  A predicate found in the `p` routing map yields its mapped graph
(admin or struct); else an `rdf:type` triple whose object is in the `t`
map goes to admin; everything else goes to the main graph. -/
def mapGraphUri (uid : String) (t : Triple) : GraphId :=
  if predOf t ∈ adminPreds then .admin uid none
  else if predOf t ∈ structPreds then .strct uid none
  else if predOf t = rdf_type ∧ objOf t ∈ adminTypes then .admin uid none
  else .main uid none

/-- The META_GR registration triple recorded for a destination graph of
resource `uid` (`<dest_graph> foaf:primaryTopic <fcres:uid>`). -/
def metaReg (uid : String) (g : GraphId) : Triple :=
  (graphTerm g, foaf_primaryTopic, fcres uid)

/-- `RsrcCentricLayout.modify_rsrc(uid, remove_trp, add_trp)`: route each
triple of the remove set and the add set to its destination graph; for
every destination graph remove its routed removals, then add its routed
additions; for every destination that receives additions, add a
`foaf:primaryTopic` registration to `META_GR`. -/
def modify_rsrc (uid : String) (removeTrp addTrp : Finset Triple)
    (store : Store) : Store :=
  fun g =>
    let base := (store g \ removeTrp.filter (fun t => mapGraphUri uid t = g))
      ∪ addTrp.filter (fun t => mapGraphUri uid t = g)
    if g = .meta then
      base ∪ (addTrp.image (mapGraphUri uid)).image (metaReg uid)
    else base

/-- `Ldpr._dedup_deltas(remove_gr, add_gr)`: remove from each delta graph
the triples it shares with the other. -/
def dedup_deltas (removeGr addGr : Finset Triple) :
    Finset Triple × Finset Triple :=
  (removeGr \ addGr, addGr \ removeGr)

/-- A concrete store used to instantiate the `modify_rsrc` theorem: the
admin graph of resource `x` holds its type triple and META_GR already
registers that graph. -/
def storeC5 : Store := fun g =>
  if g = .admin "x" none then {(fcres "x", rdf_type, fcrepo_Resource)}
  else if g = .meta then {metaReg "x" (.admin "x" none)}
  else ∅

/-- Remove set for the `modify_rsrc` instantiation: one user triple. -/
def rmC5 : Finset Triple := {(fcres "x", .iri .ext "p", .lit "old")}

/-- Add set for the `modify_rsrc` instantiation: one user triple. -/
def addC5 : Finset Triple := {(fcres "x", .iri .ext "p", .lit "new")}

/-- The configured `referential_integrity` mode
(`config['store']['ldp_rs']['referential_integrity']`).  Modelled from the
spec: the configuration file is not part of the sources; §6 enumerates the
modes `off`, `lenient`, `strict`, where `off` disables the check entirely,
so it is the one falsy value (the code guards the check with a plain
truthiness test and compares the value against the string `'strict'`). -/
inductive RefIntMode
  | off | lenient | strict
deriving DecidableEq

/-- Python truthiness of the `referential_integrity` config value. -/
def refIntTruthy : RefIntMode → Bool
  | .off => false
  | .lenient => true
  | .strict => true

/-- The `inbound` flag actually used by `Ldpr.delete`:
`inbound = True if refint else inbound`. -/
def delete_inbound (refint : RefIntMode) (inbound : Bool) : Bool :=
  if refIntTruthy refint then true else inbound

/-- The `inbound` flag actually used by `Ldpr.purge`:
`inbound = True if refint else inbound`. -/
def purge_inbound (refint : RefIntMode) (inbound : Bool) : Bool :=
  if refIntTruthy refint then true else inbound

/-- The `inbound` flag as the spec sentence describes it: forced true
exactly when the mode is `strict`; otherwise the caller value is honored.
This follows the spec wording, for comparison with the code. -/
def spec_inbound (refint : RefIntMode) (inbound : Bool) : Bool :=
  if refint = .strict then true else inbound

/-- SPARQL `DROP SILENT GRAPH g` over the store. -/
def dropGraph (g : GraphId) (store : Store) : Store :=
  fun h => if h = g then ∅ else store h

/-- SPARQL `MOVE SILENT src TO dst` over the store: the destination graph
is replaced by the source contents and the source graph is dropped. -/
def moveGraph (src dst : GraphId) (store : Store) : Store :=
  fun h =>
    if h = dst then store src
    else if h = src then ∅
    else store h

/-- `RsrcCentricLayout.delete_rsrc_data(uid, backup_uid)`: the update
string is `MOVE main(uid) TO main(uid, backup_uid)` when a backup uid is
given, else `DROP main(uid)`; the code then appends
`DROP SILENT GRAPH {mg}; DROP SILENT GRAPH {sg}` formatted with
`mg=mg_uri` and `sg=sg_uri`, i.e. it drops the main graph (again) and the
struct graph.  The admin graph URI `ag_uri` is computed but never used. -/
def delete_rsrc_data (uid : String) (backupUid : Option String)
    (store : Store) : Store :=
  let step1 : Store :=
    match backupUid with
    | some b => moveGraph (.main uid none) (.main uid (some b)) store
    | none => dropGraph (.main uid none) store
  dropGraph (.strct uid none) (dropGraph (.main uid none) step1)

/-- A concrete store for exercising `delete_rsrc_data`: resource `x` has
all three per-resource graphs populated. -/
def storeC2 : Store := fun g =>
  if g = .admin "x" none then {(fcres "x", rdf_type, fcrepo_Resource)}
  else if g = .main "x" none then {(fcres "x", .iri .ext "p", .lit "v")}
  else if g = .strct "x" none then {(fcres "x", ldp_contains, fcres "x/y")}
  else ∅

/-- An action visible outside the transaction combinator: committing,
rolling back, or sending one event message for a changelog entry. -/
inductive TxAction (α : Type)
  | commit
  | rollback
  | event (e : α)
deriving DecidableEq

/-- One primitive store operation inside a transaction: from a state it
either raises an exception or returns the new state together with an
optional changelog entry to append (`_modify_rsrc` appends one entry per
notified call). -/
def TxStep (σ ε α : Type) : Type := σ → Except ε (σ × Option α)

/-- Run the body of a transaction: execute the steps sequentially,
appending each produced changelog entry to the per-request changelog list
(which `atomic` initializes empty).  The first exception aborts the run. -/
def runSteps {σ ε α : Type} (steps : List (TxStep σ ε α)) (s : σ)
    (log : List α) : Except ε (σ × List α) :=
  match steps with
  | [] => .ok (s, log)
  | f :: rest =>
    match f s with
    | .error e => .error e
    | .ok (s', none) => runSteps rest s' log
    | .ok (s', some entry) => runSteps rest s' (log ++ [entry])

/-- The `atomic` decorator of `ldpr.py`: start with an empty changelog and
run the wrapped operation; on any exception roll back (the committed state
stays as it was) and re-raise; on success commit the final state and then
send one event message per changelog entry, in order.  The third component
records the externally visible actions in the order they happen. -/
def atomic {σ ε α : Type} (steps : List (TxStep σ ε α)) (committed : σ) :
    σ × Except ε Unit × List (TxAction α) :=
  match runSteps steps committed [] with
  | .error e => (committed, .error e, [.rollback])
  | .ok (s', log) => (s', .ok (), .commit :: log.map .event)

/-- Concrete transaction steps used to instantiate the `atomic` theorem:
two successful steps each appending a changelog entry. -/
def stepsOkC1 : List (TxStep Nat String String) :=
  [fun s => .ok (s + 1, some "e1"), fun s => .ok (s * 2, some "e2")]

/-- Concrete transaction steps whose second step raises. -/
def stepsErrC1 : List (TxStep Nat String String) :=
  [fun s => .ok (s + 1, some "e1"), fun _ => .error "boom"]

/-- Injective key of a namespace tag. -/
def nsKey : NS → Nat
  | .fcres => 0
  | .fcadmin => 1
  | .fcmain => 2
  | .fcstruct => 3
  | .fcsystem => 4
  | .fcrepo => 5
  | .ldp => 6
  | .premis => 7
  | .pcdm => 8
  | .iana => 9
  | .foaf => 10
  | .rdf => 11
  | .ext => 12

/-- Injective key of a string (base-1114112 digits of its characters). -/
def strKey (s : String) : Nat :=
  s.data.foldl (fun acc c => acc * 1114112 + (c.toNat + 1)) 0

/-- Key of a term, injective on URI and literal terms. -/
def termKey : Term → Nat
  | .iri ns nm => Nat.pair 0 (Nat.pair (nsKey ns) (strKey nm))
  | .lit v => Nat.pair 1 (strKey v)
  | .sha1 m => Nat.pair 2 m.sum

/-- Key of a triple. -/
def tripleKey (t : Triple) : Nat :=
  Nat.pair (termKey t.1) (Nat.pair (termKey t.2.1) (termKey t.2.2))

/-- `Toolbox.rdf_cksum(g)`.  Modelled from the spec: the toolbox module is
not among the sources; §4.2 requires a canonical digest of a graph,
insensitive to triple order but sensitive to any triple content change.
The model takes the multiset of triple keys as the digest value. -/
def rdf_cksum (g : Finset Triple) : Multiset Nat :=
  g.val.map tripleKey

/-- `Ldpr.base_types`: the base LDP types added to every resource. -/
def baseTypeTriples (urn : Term) : Finset Triple :=
  {(urn, rdf_type, fcrepo_Resource), (urn, rdf_type, ldp_Resource),
   (urn, rdf_type, ldp_RDFSource)}

/-- `rdflib.resource.Resource.set(p, o)` on the resource `urn`: remove
every triple `(urn, p, _)` and add `(urn, p, o)`. -/
def rsrcSet (urn p o : Term) (g : Finset Triple) : Finset Triple :=
  g.filter (fun t => ¬(t.1 = urn ∧ predOf t = p)) ∪ {(urn, p, o)}

/-- `Ldpr.DEFAULT_USER`. -/
def DEFAULT_USER : Term := .lit "BypassAdmin"

/-- `Ldpr._add_srv_mgd_triples(create)` acting on the provided graph with
resource URN `urn` and request timestamp `ts`: add the base LDP types;
then compute `rdf_cksum` of the graph as it stands (base types included,
timestamps not yet present) and set `premis:hasMessageDigest` to the
`urn:sha1:` URI of that checksum; on create, set `fcrepo:created` and
`fcrepo:createdBy`; always set `fcrepo:lastModified` and
`fcrepo:lastModifiedBy` — after the digest has been computed. -/
def add_srv_mgd_triples (create : Bool) (urn ts : Term)
    (g : Finset Triple) : Finset Triple :=
  let g₁ := g ∪ baseTypeTriples urn
  let g₂ := rsrcSet urn premis_hasMessageDigest (.sha1 (rdf_cksum g₁)) g₁
  let g₃ :=
    if create then
      rsrcSet urn fcrepo_createdBy DEFAULT_USER
        (rsrcSet urn fcrepo_created ts g₂)
    else g₂
  rsrcSet urn fcrepo_lastModifiedBy DEFAULT_USER
    (rsrcSet urn fcrepo_lastModified ts g₃)

/-- The provided graph used to instantiate the digest claim: one user
triple on the resource URN. -/
def provC6 : Finset Triple := {(fcres "x", .iri .ext "p", .lit "v")}

/-- `URIRef(parts[0])` for `parts = s.split('#')`: the URI up to the first
hash character (non-URI terms are untouched; subjects are always URIs). -/
def stripFrag : Term → Term
  | .iri ns nm => .iri ns (String.mk (nm.data.takeWhile (fun c => ¬ c = '#')))
  | t => t

/-- `'#' in s` on a term's URI string. -/
def hasHash : Term → Bool
  | .iri _ nm => nm.data.any (fun c => c = '#')
  | _ => false

/-- `set(gr.subjects())`. -/
def subjectsOf (g : Finset Triple) : Finset Term :=
  g.image (fun t => t.1)

/-- The subjects of `g` that fail the single-subject test against `urn`:
those not equal to `urn` after fragment stripping. -/
def offendersOf (urn : Term) (g : Finset Triple) : Finset Term :=
  (subjectsOf g).filter (fun s => ¬ stripFrag s = urn)

/-- The `<frag> fcsystem:fragmentOf <stripped>` triples recorded for the
hash-fragment subjects of `g`. -/
def fragTriples (g : Finset Triple) : Finset Triple :=
  ((subjectsOf g).filter (fun s => hasHash s)).image
    (fun s => (s, fcsystem_fragmentOf, stripFrag s))

/-- `Ldpr._ensure_single_subject_rdf(gr)`: walk the subjects of the graph;
hash-fragment subjects are recorded with a `fcsystem:fragmentOf` triple;
any subject that is not `urn` (nor a hash-fragment of it) raises
`SingleSubjectError`.  The error value carries the offending subjects
(the set iteration order of the Python loop is unspecified). -/
def ensure_single_subject_rdf (urn : Term) (g : Finset Triple) :
    Except (Finset Term) (Finset Triple) :=
  if offendersOf urn g = ∅ then .ok (g ∪ fragTriples g)
  else .error (offendersOf urn g)

/-- The front of `Ldpr._create_or_replace_rsrc`, in source order: first
`_add_srv_mgd_triples(create)` mutates the provided graph, then
`_ensure_single_subject_rdf` runs on the mutated graph.  On error, the
result carries the offending subjects together with the state the
provided graph had when the exception was raised. -/
def create_or_replace_front (create : Bool) (urn ts : Term)
    (provided : Finset Triple) :
    Except (Finset Term × Finset Triple) (Finset Triple) :=
  let g₁ := add_srv_mgd_triples create urn ts provided
  match ensure_single_subject_rdf urn g₁ with
  | .error offs => .error (offs, g₁)
  | .ok g₂ => .ok g₂

/-- The provided graph used against the single-subject claim: its only
triple has a subject foreign to the resource URN. -/
def provC8 : Finset Triple :=
  {(.iri .ext "bad", .iri .ext "p", .lit "v")}

instance {ε α : Type} [DecidableEq ε] [DecidableEq α] :
    DecidableEq (Except ε α) := fun x y =>
  match x, y with
  | .error a, .error b =>
    if h : a = b then isTrue (by rw [h])
    else isFalse (by intro hc; cases hc; exact h rfl)
  | .ok a, .ok b =>
    if h : a = b then isTrue (by rw [h])
    else isFalse (by intro hc; cases hc; exact h rfl)
  | .error _, .ok _ => isFalse (fun hc => Except.noConfusion hc)
  | .ok _, .error _ => isFalse (fun hc => Except.noConfusion hc)

/-- `Ldpr.out_graph`: filter of the IMR graph.  A triple is kept when its
predicate is neither `premis:hasMessageDigest` nor `fcrepo:hasVersion`,
and either server-managed output is requested (`incl_srv_mgd`, default
true) or the triple carries no server-managed predicate and no
server-managed type (the source tests
`not (t[1] == RDF.type or t[2] in srv_mgd_types)`, kept as written).
The server-managed term sets live in a module outside the sources and are
taken as parameters. -/
def out_graph (imr : Finset Triple) (inclSrvMgd : Bool)
    (srvP srvT : Finset Term) : Finset Triple :=
  imr.filter (fun t =>
    (predOf t ∉ ({premis_hasMessageDigest, fcrepo_hasVersion} : Finset Term))
    ∧ (inclSrvMgd
      ∨ (predOf t ∉ srvP ∧ ¬(predOf t = rdf_type ∨ objOf t ∈ srvT))))

/-- `Toolbox.globalize_graph` on a single term.  Modelled from the spec:
the toolbox module is not among the sources; §4.2 makes globalization the
inverse of localization, which rewrites `fcres:<uid>` to
`<webroot>/<uid>` and `fcsystem:root` to `<webroot>`; external URIs are
untouched. -/
def globalizeTerm (w : String) (t : Term) : Term :=
  match t with
  | .iri .fcres uid => .iri .ext (w ++ "/" ++ uid)
  | .iri .fcsystem nm => if nm = "root" then .iri .ext w else .iri .fcsystem nm
  | t => t

/-- Globalization of one triple. -/
def globalizeTriple (w : String) (t : Triple) : Triple :=
  (globalizeTerm w t.1, globalizeTerm w t.2.1, globalizeTerm w t.2.2)

/-- `Toolbox.globalize_graph`: globalize every triple. -/
def globalize_graph (w : String) (g : Finset Triple) : Finset Triple :=
  g.image (globalizeTriple w)

/-- `Ldpr.get()`: the globalized output graph of the resource. -/
def ldpr_get (w : String) (imr : Finset Triple) (inclSrvMgd : Bool)
    (srvP srvT : Finset Term) : Finset Triple :=
  globalize_graph w (out_graph imr inclSrvMgd srvP srvT)

/-- A concrete IMR used to instantiate the `get` claim: a user triple, a
digest triple and a version triple. -/
def imrC10 : Finset Triple :=
  {(fcres "x", .iri .ext "p", .lit "v"),
   (fcres "x", premis_hasMessageDigest, .sha1 {1}),
   (fcres "x", fcrepo_hasVersion, fcres "x/fcr:versions/v1"),
   (fcres "x", fcrepo_created, .lit "t0")}

/-- A quad store with graphs as triple lists.  This representation is used
for the lifecycle-engine slice, where iteration order matters (rdflib
generators); graphs are kept duplicate-free by construction. -/
def StoreL := GraphId → List Triple

/-- The uid of an internal `fcres:` URN (subject-based routing). -/
def uidOf : Term → String
  | .iri .fcres uid => uid
  | _ => ""

/-- The graph produced by the CONSTRUCT of
`RsrcCentricLayout.extract_imr(uid)`: the union of `admin(uid)` and
`main(uid)`, plus `struct(uid)` when `incl_children` (the default). -/
def extract_imr_graphL (uid : String) (inclChildren : Bool)
    (st : StoreL) : List Triple :=
  st (.admin uid none) ++ st (.main uid none)
    ++ (if inclChildren then st (.strct uid none) else [])

/-- One expansion round of the rdflib property path
`ldp:contains * '+'` inside a single graph: follow every `ldp:contains`
edge out of the frontier, keeping newly reached objects. -/
def containsStepL (g : List Triple) (frontier acc : List Term) :
    List Term × List Term :=
  let next := ((g.filter (fun t => t.1 ∈ frontier ∧ predOf t = ldp_contains)
    ).map objOf).dedup
  let fresh := next.filter (fun o => ¬ o ∈ acc)
  (fresh, acc ++ fresh)

/-- Fuel-bounded saturation of `containsStepL`. -/
def containsReachL (g : List Triple) :
    Nat → List Term → List Term → List Term
  | 0, _, acc => acc
  | fuel + 1, frontier, acc =>
    let p := containsStepL g frontier acc
    match p.1 with
    | [] => acc
    | fresh => containsReachL g fuel fresh p.2

/-- `self.imr[nsc['ldp'].contains * '+']`: every object reachable from
`start` through one or more `ldp:contains` edges of the single graph `g`
(the IMR graph — not the full dataset). -/
def containsPlusL (g : List Triple) (start : Term) : List Term :=
  let direct := ((g.filter (fun t => t.1 = start ∧ predOf t = ldp_contains)
    ).map objOf).dedup
  containsReachL g g.length direct direct

/-- `modify_dataset(remove_trp, add_trp)` — this layout method is invoked
by `ldpr.py` but is not among the sources.  Modelled from the spec: the
data-flow of §2 routes each triple of a delta to the per-resource graph
determined by the routing table for the triple's subject resource. -/
def modify_datasetL (removeTrp addTrp : List Triple) (st : StoreL) :
    StoreL :=
  fun g =>
    ((st g).filter (fun t => ¬(t ∈ removeTrp ∧ mapGraphUri (uidOf t.1) t = g)))
      ++ (addTrp.filter
        (fun t => mapGraphUri (uidOf t.1) t = g ∧ ¬ t ∈ st g))

/-- `Ldpr._bury_rsrc(inbound, tstone_pointer)` for the `inbound = False`
configuration (the inbound branch only removes inbound references and
never adds tombstone pointers): remove the resource's IMR graph and add
either a `fcsystem:tombstone` pointer to the containing resource's
tombstone, or the tombstone markers themselves.  A backup version
snapshot is also created (`_create_rsrc_version`), which touches only
version graphs and is not modelled here. -/
def bury_rsrcL (uid : String) (inclChildren : Bool)
    (tstonePointer : Option Term) (ts : Term) (st : StoreL) : StoreL :=
  let removeTrp := extract_imr_graphL uid inclChildren st
  let addTrp : List Triple :=
    match tstonePointer with
    | some ptr => [(fcres uid, fcsystem_tombstone, ptr)]
    | none => [(fcres uid, rdf_type, fcsystem_Tombstone),
               (fcres uid, fcrepo_created, ts)]
  modify_datasetL removeTrp addTrp st

/-- The `leave_tstone = True` path of `Ldpr.delete` with `inbound = False`
(referential integrity off): enumerate the children through the
transitive `ldp:contains` path over the target's own IMR graph, bury the
target as a tombstone, then bury each enumerated child (loaded with
`incl_children = False`) with a pointer to the target's tombstone. -/
def ldpr_deleteL (uid : String) (deleteChildren : Bool) (ts : Term)
    (st : StoreL) : StoreL :=
  let children :=
    if deleteChildren then
      containsPlusL (extract_imr_graphL uid true st) (fcres uid)
    else []
  let st₁ := bury_rsrcL uid true none ts st
  children.foldl
    (fun s c => bury_rsrcL (uidOf c) false (some (fcres uid)) ts s) st₁

/-- A store holding a three-level containment tree
`a —ldp:contains→ a/b —ldp:contains→ a/b/c`. -/
def storeC3 : StoreL := fun g =>
  if g = .admin "a" none then [(fcres "a", rdf_type, fcrepo_Resource)]
  else if g = .strct "a" none then [(fcres "a", ldp_contains, fcres "a/b")]
  else if g = .admin "a/b" none then [(fcres "a/b", rdf_type, fcrepo_Resource)]
  else if g = .strct "a/b" none then
    [(fcres "a/b", ldp_contains, fcres "a/b/c")]
  else if g = .admin "a/b/c" none then
    [(fcres "a/b/c", rdf_type, fcrepo_Resource)]
  else if g = .main "a/b/c" none then
    [(fcres "a/b/c", .iri .ext "p", .lit "v")]
  else []

/-- Split a character list on `'/'`. -/
def splitCharsAux : List Char → List Char → List (List Char)
  | [], cur => [cur.reverse]
  | c :: rest, cur =>
    if c = '/' then cur.reverse :: splitCharsAux rest []
    else splitCharsAux rest (c :: cur)

/-- `uuid.split('/')`. -/
def splitSlash (s : String) : List String :=
  (splitCharsAux s.data []).map String.mk

/-- `accumulate(list(path_components)[:-1], lambda x,y: x + '/' + y)`:
the forward search order of candidate ancestor uids, shallowest first
(e.g. for `a/b/c/d/e`: `a`, `a/b`, `a/b/c`, `a/b/c/d`). -/
def fwd_search_order (comps : List String) : List String :=
  match comps.dropLast with
  | [] => []
  | x :: xs => List.scanl (fun a b => a ++ "/" ++ b) x xs

/-- `RsrcCentricLayout.ask_rsrc_exists(uid)`: is
`<fcres:uid> rdf:type fcrepo:Resource` in `admin(uid)`? -/
def ask_rsrc_existsL (uid : String) (st : StoreL) : Bool :=
  (fcres uid, rdf_type, fcrepo_Resource) ∈ st (.admin uid none)

/-- The search loop of `Ldpr._find_parent_or_create_pairtree`: walk the
candidate ancestors deepest first; the first extant one is the parent;
every missing one is recorded as a pairtree segment `(uri, child_uri)`
where the child is the previously visited (deeper) node. -/
def findParentLoop (st : StoreL) :
    List String → Term → List (Term × Term) →
      Option Term × List (Term × Term)
  | [], _, segments => (none, segments)
  | cparentUuid :: rest, curChild, segments =>
    let cparentUri := fcres cparentUuid
    if ask_rsrc_existsL cparentUuid st then (some cparentUri, segments)
    else findParentLoop st rest cparentUri (segments ++ [(cparentUri, curChild)])

/-- `Ldpr._find_parent_or_create_pairtree` for resource uid `uuid`:
returns the real parent URN (the root node when no ancestor is extant)
and the list of missing path segments to create, deepest first. -/
def find_parent_or_create_pairtree (uuid : String) (st : StoreL) :
    Term × List (Term × Term) :=
  let comps := splitSlash uuid
  if comps.length < 2 then (fcsystem_root, [])
  else
    let res := findParentLoop st (fwd_search_order comps).reverse
      (fcres uuid) []
    (res.1.getD fcsystem_root, res.2)

/-- `'/' in str(uri)` — the source tests the full URN string; the model
tests the uid part, which decides identically for every segment created
under a multi-component path. -/
def uriHasSlash : Term → Bool
  | .iri _ nm => nm.data.any (fun c => c = '/')
  | _ => false

/-- `Ldpr._create_path_segment(uri, child_uri, real_parent_uri)`: the
triples added for one missing path segment — the four container types,
a `fcrepo:contains` link to the next (deeper) node, an `ldp:contains`
link to the resource being created (`self.urn`), the `fcrepo:hasParent`
link to the real parent, and a root containment link when the segment
sits just below the root. -/
def create_path_segment_triples (uri childUri urn realParent : Term) :
    List Triple :=
  [(uri, rdf_type, ldp_Container),
   (uri, rdf_type, ldp_BasicContainer),
   (uri, rdf_type, ldp_RDFSource),
   (uri, rdf_type, fcrepo_Pairtree),
   (uri, fcrepo_contains, childUri),
   (uri, ldp_contains, urn),
   (uri, fcrepo_hasParent, realParent)]
  ++ (if uriHasSlash uri then [] else [(fcsystem_root, fcrepo_contains, uri)])

/-- The per-segment triple sets created while finding the parent of
`uuid` (each segment goes through `_create_path_segment`). -/
def set_containment_segments (uuid : String) (st : StoreL) :
    List (List Triple) :=
  let res := find_parent_or_create_pairtree uuid st
  res.2.map (fun p => create_path_segment_triples p.1 p.2 (fcres uuid) res.1)

/-- The containment triple added to the real parent by
`Ldpr._set_containment_rel`: `<parent> ldp:contains <urn>`. -/
def set_containment_parent_link (uuid : String) (st : StoreL) : Triple :=
  ((find_parent_or_create_pairtree uuid st).1, ldp_contains, fcres uuid)

/-- Does a segment list form a containment chain ending at `r`: the first
(deepest) segment's child is `r` and each following segment's child is
the previous segment's node? -/
def chainFrom (r : Term) : List (Term × Term) → Bool
  | [] => true
  | (u, c) :: rest => if c = r then chainFrom u rest else false

/-- A store where only resource `a` is extant. -/
def storeC4 : StoreL := fun g =>
  if g = .admin "a" none then [(fcres "a", rdf_type, fcrepo_Resource)]
  else []

/-- The routing table only ever targets the three per-resource graph
families, never the META graph. -/
theorem mapGraphUri_ne_meta (uid : String) (t : Triple) :
    mapGraphUri uid t ≠ .meta := by
  unfold mapGraphUri
  split_ifs <;> intro h <;> exact GraphId.noConfusion h

/-- C5: `modify_rsrc(uid, remove_set, add_set)` routes every triple to the
destination graph given by the static routing table; per graph, it removes
the routed removals and then adds the routed additions; every destination
that receives at least one added triple is registered in `META_GR` by a
`<dest_graph> foaf:primaryTopic <fcres:uid>` triple; and any registration
present afterwards but not before belongs to some destination of an added
triple, so destinations touched only on the remove side gain none. -/
theorem modify_rsrc_routes_and_registers
    (uid : String) (removeTrp addTrp : Finset Triple) (store : Store) :
    (∀ g : GraphId, g ≠ .meta →
      modify_rsrc uid removeTrp addTrp store g
        = (store g \ removeTrp.filter (fun t => mapGraphUri uid t = g))
          ∪ addTrp.filter (fun t => mapGraphUri uid t = g))
    ∧ (∀ t ∈ addTrp,
        metaReg uid (mapGraphUri uid t)
          ∈ modify_rsrc uid removeTrp addTrp store .meta)
    ∧ (∀ x ∈ modify_rsrc uid removeTrp addTrp store .meta,
        x ∉ store .meta →
          ∃ t ∈ addTrp, x = metaReg uid (mapGraphUri uid t)) := by
  refine ⟨fun g hg => ?_, fun t ht => ?_, fun x hx hnx => ?_⟩
  · simp only [modify_rsrc, if_neg hg]
  · simp only [modify_rsrc, if_pos rfl, reduceIte, Finset.mem_union,
      Finset.mem_image]
    exact Or.inr ⟨mapGraphUri uid t, ⟨t, ht, rfl⟩, rfl⟩
  · simp only [modify_rsrc, reduceIte, Finset.mem_union, Finset.mem_sdiff,
      Finset.mem_filter, Finset.mem_image] at hx
    rcases hx with (⟨hmem, _⟩ | ⟨_, hroute⟩) | ⟨g, ⟨t, ht, hgt⟩, hgx⟩
    · exact absurd hmem hnx
    · exact absurd hroute (mapGraphUri_ne_meta uid x)
    · exact ⟨t, ht, by rw [← hgx, hgt]⟩

/-- C5 witness: the `modify_rsrc` theorem instantiated on a concrete store,
remove set and add set for resource `x`. -/
theorem modify_rsrc_routes_and_registers_witness :
    modify_rsrc "x" rmC5 addC5 storeC5 (.main "x" none)
      = (storeC5 (.main "x" none)
          \ rmC5.filter (fun t => mapGraphUri "x" t = .main "x" none))
        ∪ addC5.filter (fun t => mapGraphUri "x" t = .main "x" none)
    ∧ metaReg "x" (mapGraphUri "x" (fcres "x", .iri .ext "p", .lit "new"))
        ∈ modify_rsrc "x" rmC5 addC5 storeC5 .meta := by
  refine ⟨(modify_rsrc_routes_and_registers "x" rmC5 addC5 storeC5).1
      (.main "x" none) (by decide), ?_⟩
  exact (modify_rsrc_routes_and_registers "x" rmC5 addC5 storeC5).2.1
      (fcres "x", .iri .ext "p", .lit "new") (by decide)

/-- C7 counterexample: with `referential_integrity = lenient` and a caller
passing `inbound = false`, both `delete` and `purge` force `inbound` to
true (the code tests the config value for truthiness, and `lenient` is
truthy), while the claim says the caller value is honored for `lenient`. -/
theorem inbound_forcing_counterexample :
    delete_inbound .lenient false = true
    ∧ purge_inbound .lenient false = true
    ∧ spec_inbound .lenient false = false := by decide

/-- C7 amended: in `delete` and `purge` the `inbound` flag is forced to
true whenever the configured `referential_integrity` mode is enabled
(`lenient` or `strict`); only the `off` mode honors the caller value. -/
theorem inbound_forced_when_refint_enabled
    (refint : RefIntMode) (inbound : Bool) :
    delete_inbound refint inbound = (if refint = .off then inbound else true)
    ∧ purge_inbound refint inbound
      = (if refint = .off then inbound else true) := by
  cases refint <;> cases inbound <;> exact ⟨rfl, rfl⟩

/-- C2: evaluation of `delete_rsrc_data` on a store where resource `x` has
all three graphs populated: the main and struct graphs are dropped, but
the admin graph is left untouched (non-empty), with or without a backup
uid — the generated update never drops `admin(uid)`. -/
theorem delete_rsrc_data_keeps_admin_graph :
    delete_rsrc_data "x" none storeC2 (.admin "x" none)
      = {(fcres "x", rdf_type, fcrepo_Resource)}
    ∧ delete_rsrc_data "x" none storeC2 (.main "x" none) = ∅
    ∧ delete_rsrc_data "x" none storeC2 (.strct "x" none) = ∅
    ∧ delete_rsrc_data "x" (some "b") storeC2 (.admin "x" none) ≠ ∅ := by
  decide

/-- Changelog threading through a transaction body: running the steps with
an initial changelog `log` produces the same outcome as running them with
an empty changelog and prefixing `log` to the produced entries. -/
theorem runSteps_log_shift {σ ε α : Type} (steps : List (TxStep σ ε α))
    (s : σ) (log : List α) :
    runSteps steps s log
      = match runSteps steps s [] with
        | .error e => .error e
        | .ok (s₁, tail) => .ok (s₁, log ++ tail) := by
  induction steps generalizing s log with
  | nil => simp [runSteps]
  | cons f rest ih =>
    simp only [runSteps, List.nil_append]
    cases f s with
    | error e => rfl
    | ok p =>
      rcases p with ⟨s₁, entry⟩
      cases entry with
      | none => exact ih s₁ log
      | some a =>
        dsimp only
        rw [ih s₁ (log ++ [a]), ih s₁ [a]]
        cases runSteps rest s₁ [] with
        | error e => rfl
        | ok q => simp

/-- Concatenating two step sequences concatenates their changelogs, in
order: entries appended by the first part precede those of the second. -/
theorem runSteps_append {σ ε α : Type} (steps more : List (TxStep σ ε α))
    (s : σ) :
    runSteps (steps ++ more) s []
      = match runSteps steps s [] with
        | .error e => .error e
        | .ok (s₁, log₁) =>
          match runSteps more s₁ [] with
          | .error e => .error e
          | .ok (s₂, log₂) => .ok (s₂, log₁ ++ log₂) := by
  induction steps generalizing s with
  | nil =>
    simp only [List.nil_append, runSteps]
    rw [runSteps_log_shift more s []]
    cases runSteps more s [] with
    | error e => rfl
    | ok q => simp
  | cons f rest ih =>
    simp only [List.cons_append, runSteps, List.nil_append, List.append_eq]
    cases f s with
    | error e => rfl
    | ok p =>
      rcases p with ⟨s₁, entry⟩
      cases entry with
      | none => exact ih s₁
      | some a =>
        dsimp only
        rw [runSteps_log_shift (rest ++ more) s₁ [a], ih s₁,
          runSteps_log_shift rest s₁ [a]]
        cases runSteps rest s₁ [] with
        | error e => rfl
        | ok q =>
          rcases q with ⟨s₂, log₁⟩
          simp only []
          cases runSteps more s₂ [] with
          | error e => rfl
          | ok r => simp

/-- C1: the `atomic` combinator is atomic.  If the wrapped operation
raises, the committed state is returned unchanged (the transaction is
rolled back, no partial state persists), the exception is re-raised, and
no event action occurs.  If it succeeds, the commit action comes first,
followed by exactly one event per changelog entry in the order the
entries were appended — in particular, entries appended by an earlier
part of the operation are emitted before those of a later part. -/
theorem atomic_rollback_commit_events {σ ε α : Type}
    (steps : List (TxStep σ ε α)) (committed : σ) :
    (∀ e : ε, runSteps steps committed [] = .error e →
      atomic steps committed = (committed, Except.error e, [TxAction.rollback])
      ∧ ∀ x : α, TxAction.event x ∉ (atomic steps committed).2.2)
    ∧ (∀ s₁ : σ, ∀ log : List α,
        runSteps steps committed [] = .ok (s₁, log) →
        atomic steps committed
          = (s₁, Except.ok (), TxAction.commit :: log.map TxAction.event))
    ∧ (∀ more : List (TxStep σ ε α), ∀ s₁ s₂ : σ, ∀ log₁ log₂ : List α,
        runSteps steps committed [] = .ok (s₁, log₁) →
        runSteps more s₁ [] = .ok (s₂, log₂) →
        (atomic (steps ++ more) committed).2.2
          = TxAction.commit :: (log₁ ++ log₂).map TxAction.event) := by
  refine ⟨fun e h => ?_, fun s₁ log h => ?_, fun more s₁ s₂ log₁ log₂ h₁ h₂ => ?_⟩
  · have hA : atomic steps committed
        = (committed, Except.error e, [TxAction.rollback]) := by
      simp [atomic, h]
    refine ⟨hA, fun x hx => ?_⟩
    rw [hA] at hx
    simp at hx
  · simp [atomic, h]
  · have h₃ : runSteps (steps ++ more) committed [] = .ok (s₂, log₁ ++ log₂) := by
      rw [runSteps_append, h₁]
      dsimp only
      rw [h₂]
    simp [atomic, h₃]

/-- C1 witness: the `atomic` theorem applied to two concrete operations —
one whose second step raises (rolled back, no events) and one that
succeeds with two changelog entries (commit, then both events in append
order). -/
theorem atomic_rollback_commit_events_witness :
    atomic stepsErrC1 0 = (0, Except.error "boom", [TxAction.rollback])
    ∧ atomic stepsOkC1 0
      = (2, Except.ok (),
         [TxAction.commit, TxAction.event "e1", TxAction.event "e2"]) :=
  ⟨((atomic_rollback_commit_events stepsErrC1 0).1 "boom" rfl).1,
   (atomic_rollback_commit_events stepsOkC1 0).2.1 2 ["e1", "e2"] rfl⟩

/-- C3: evaluation of `delete(a)` with `delete_children = true` and
`leave_tstone = true` on the three-level tree `a ⊐ a/b ⊐ a/b/c`.  The
transitive `ldp:contains * '+'` path is evaluated inside the target's own
IMR graph (admin ∪ main ∪ struct of `a`), which holds only the direct
containment link, so the enumeration yields just `a/b`: the direct child
gets its `fcsystem:tombstone` pointer, while the grandchild `a/b/c` keeps
its admin and main graphs unchanged and receives no tombstone pointer. -/
theorem delete_tombstone_skips_grandchildren :
    containsPlusL (extract_imr_graphL "a" true storeC3) (fcres "a")
      = [fcres "a/b"]
    ∧ (fcres "a/b", fcsystem_tombstone, fcres "a")
        ∈ ldpr_deleteL "a" true (.lit "t0") storeC3 (.main "a/b" none)
    ∧ ldpr_deleteL "a" true (.lit "t0") storeC3 (.admin "a/b/c" none)
        = [(fcres "a/b/c", rdf_type, fcrepo_Resource)]
    ∧ ldpr_deleteL "a" true (.lit "t0") storeC3 (.main "a/b/c" none)
        = [(fcres "a/b/c", .iri .ext "p", .lit "v")]
    ∧ ¬ (fcres "a/b/c", fcsystem_tombstone, fcres "a")
        ∈ ldpr_deleteL "a" true (.lit "t0") storeC3 (.main "a/b/c" none) := by
  decide

/-- C4 counterexample: creating `a/b/c/d` with only `a` extant.  The
created segments carry no `fcsystem:contains` statement at all (the
source uses `fcrepo:contains` for the hidden containment chain), and the
`ldp:contains` statement pointing to the new resource's URN appears on
every created segment — here on `a/b`, which is not the deepest segment —
while the extant parent's `ldp:contains` also points directly at
`a/b/c/d`. -/
theorem pairtree_segment_predicates_counterexample :
    (fcres "a/b", ldp_contains, fcres "a/b/c/d")
      ∈ (set_containment_segments "a/b/c/d" storeC4).flatten
    ∧ ((set_containment_segments "a/b/c/d" storeC4).flatten.all
        (fun t => decide (¬ predOf t = fcsystem_contains))) = true
    ∧ ((set_containment_segments "a/b/c/d" storeC4).flatten.all
        (fun t => decide (¬(predOf t = ldp_contains
          ∧ ¬ objOf t = fcres "a/b/c/d")))) = true
    ∧ set_containment_parent_link "a/b/c/d" storeC4
        = (fcres "a", ldp_contains, fcres "a/b/c/d") := by
  decide

/-- The parent-search loop produces segments chained toward the node it
started from: each appended segment's child is the previously visited
node. -/
theorem findParentLoop_chain (st : StoreL) (order : List String) :
    ∀ (cur : Term) (segs : List (Term × Term)),
      ∃ tail, (findParentLoop st order cur segs).2 = segs ++ tail
        ∧ chainFrom cur tail = true := by
  induction order with
  | nil => exact fun cur segs => ⟨[], by simp [findParentLoop], rfl⟩
  | cons c rest ih =>
    intro cur segs
    by_cases h : ask_rsrc_existsL c st = true
    · exact ⟨[], by simp [findParentLoop, h], rfl⟩
    · obtain ⟨tail, ht, hc⟩ := ih (fcres c) (segs ++ [(fcres c, cur)])
      refine ⟨(fcres c, cur) :: tail, ?_, ?_⟩
      · simp only [findParentLoop, h, ite_false, Bool.false_eq_true]
        rw [ht]
        simp
      · simp [chainFrom, hc]

/-- C4 amended: every missing intermediate segment created by
`_find_parent_or_create_pairtree` is a pairtree segment with exactly the
types `{ldp:Container, ldp:BasicContainer, ldp:RDFSource,
fcrepo:Pairtree}` (the `rdf:type` triples of a created segment are
characterized exactly: no other type is added); its hidden containment
statement toward the next (deeper) node uses the predicate
`fcrepo:contains` — no `fcsystem:contains` statement is produced — and
the `ldp:contains` statements of a segment are exactly the single link
`<segment> ldp:contains <urn_of_R>`, at every created segment, not only
the deepest; the segments chain toward `R` (the first segment's child is
`R`, each later segment's child is the previous segment).  Creating
`a/b/c` with only `a` extant yields exactly two new `ldp:contains`
statements — `<a/b> ldp:contains <fcres:a/b/c>` on the segment and
`<a> ldp:contains <fcres:a/b/c>` on the extant parent, both pointing at
`R` — and every produced `ldp:contains` triple routes to a struct
graph. -/
theorem pairtree_segments_structure (uuid : String) (st : StoreL) :
    chainFrom (fcres uuid) (find_parent_or_create_pairtree uuid st).2 = true
    ∧ (∀ p ∈ (find_parent_or_create_pairtree uuid st).2, ∀ par : Term,
        (∀ s o : Term,
          (s, rdf_type, o)
              ∈ create_path_segment_triples p.1 p.2 (fcres uuid) par
            ↔ s = p.1 ∧ (o = ldp_Container ∨ o = ldp_BasicContainer
                ∨ o = ldp_RDFSource ∨ o = fcrepo_Pairtree))
        ∧ (∀ s o : Term,
          (s, ldp_contains, o)
              ∈ create_path_segment_triples p.1 p.2 (fcres uuid) par
            ↔ s = p.1 ∧ o = fcres uuid)
        ∧ (p.1, fcrepo_contains, p.2)
          ∈ create_path_segment_triples p.1 p.2 (fcres uuid) par
        ∧ (p.1, fcrepo_hasParent, par)
          ∈ create_path_segment_triples p.1 p.2 (fcres uuid) par
        ∧ ¬ fcsystem_contains
          ∈ (create_path_segment_triples p.1 p.2 (fcres uuid) par).map
              predOf)
    ∧ ((set_containment_segments "a/b/c" storeC4).flatten
          ++ [set_containment_parent_link "a/b/c" storeC4]).filter
            (fun t => decide (predOf t = ldp_contains))
        = [(fcres "a/b", ldp_contains, fcres "a/b/c"),
           (fcres "a", ldp_contains, fcres "a/b/c")]
    ∧ ((set_containment_segments "a/b/c" storeC4).flatten
          ++ [set_containment_parent_link "a/b/c" storeC4]).all
            (fun t => decide (predOf t = ldp_contains →
              mapGraphUri (uidOf t.1) t = .strct (uidOf t.1) none)) = true := by
  refine ⟨?_, ?_, by decide, by decide⟩
  · simp only [find_parent_or_create_pairtree]
    split_ifs with h
    · rfl
    · obtain ⟨tail, ht, hc⟩ := findParentLoop_chain st
        (fwd_search_order (splitSlash uuid)).reverse (fcres uuid) []
      dsimp only
      rw [ht]
      simpa using hc
  · intro p hp par
    refine ⟨?_, ?_,
      by simp [create_path_segment_triples],
      by simp [create_path_segment_triples], ?_⟩
    · intro s o
      cases h : uriHasSlash p.1 <;>
        simp [create_path_segment_triples, h, rdf_type, ldp_Container,
          ldp_BasicContainer, ldp_RDFSource, fcrepo_Pairtree,
          fcrepo_contains, ldp_contains, fcrepo_hasParent,
          fcsystem_root] <;> tauto
    · intro s o
      cases h : uriHasSlash p.1 <;>
        simp [create_path_segment_triples, h, rdf_type, ldp_Container,
          ldp_BasicContainer, ldp_RDFSource, fcrepo_Pairtree,
          fcrepo_contains, ldp_contains, fcrepo_hasParent,
          fcsystem_root]
    · cases h : uriHasSlash p.1 <;>
        simp [create_path_segment_triples, h, predOf, fcsystem_contains,
          rdf_type, fcrepo_contains, ldp_contains, fcrepo_hasParent]

/-- C4 amended witness: the theorem instantiated on creating `a/b/c/d`
with only `a` extant; the non-deepest segment `a/b` carries the
`ldp:contains` link to `a/b/c/d` and the `fcrepo:Pairtree` type, and its
type triples admit no object outside the four container types. -/
theorem pairtree_segments_structure_witness :
    chainFrom (fcres "a/b/c/d")
      (find_parent_or_create_pairtree "a/b/c/d" storeC4).2 = true
    ∧ (fcres "a/b", ldp_contains, fcres "a/b/c/d")
      ∈ create_path_segment_triples (fcres "a/b") (fcres "a/b/c")
          (fcres "a/b/c/d") (fcres "a")
    ∧ (fcres "a/b", rdf_type, fcrepo_Pairtree)
      ∈ create_path_segment_triples (fcres "a/b") (fcres "a/b/c")
          (fcres "a/b/c/d") (fcres "a")
    ∧ ¬ (fcres "a/b", rdf_type, fcrepo_Resource)
      ∈ create_path_segment_triples (fcres "a/b") (fcres "a/b/c")
          (fcres "a/b/c/d") (fcres "a") := by
  have h := (pairtree_segments_structure "a/b/c/d" storeC4).2.1
    (fcres "a/b", fcres "a/b/c") (by decide) (fcres "a")
  refine ⟨(pairtree_segments_structure "a/b/c/d" storeC4).1, ?_, ?_, ?_⟩
  · exact (h.2.1 (fcres "a/b") (fcres "a/b/c/d")).mpr ⟨rfl, rfl⟩
  · exact (h.1 (fcres "a/b") fcrepo_Pairtree).mpr ⟨rfl, by tauto⟩
  · intro hmem
    have := (h.1 (fcres "a/b") fcrepo_Resource).mp hmem
    rcases this.2 with h₁ | h₁ | h₁ | h₁ <;> exact absurd h₁ (by decide)

/-- C6 counterexample: for a concrete provided graph on resource `x`, the
digest stored by `_add_srv_mgd_triples` equals `urn:sha1:rdf_cksum` of
the provided triples plus the base types only — the graph as it stood
when the checksum was computed — and differs from `rdf_cksum` of the full
final graph minus the digest triple, because `fcrepo:created`,
`fcrepo:createdBy`, `fcrepo:lastModified` and `fcrepo:lastModifiedBy` are
set only after the digest. -/
theorem digest_excludes_timestamps_counterexample :
    (fcres "x", premis_hasMessageDigest,
        Term.sha1 (rdf_cksum (provC6 ∪ baseTypeTriples (fcres "x"))))
      ∈ add_srv_mgd_triples true (fcres "x") (.lit "t0") provC6
    ∧ (fcres "x", premis_hasMessageDigest,
        Term.sha1 (rdf_cksum
          ((add_srv_mgd_triples true (fcres "x") (.lit "t0") provC6).filter
            (fun t => ¬ predOf t = premis_hasMessageDigest))))
      ∉ add_srv_mgd_triples true (fcres "x") (.lit "t0") provC6 := by
  decide

/-- C6 amended: after `_add_srv_mgd_triples`, the digest triple on the
resource URN carries exactly `urn:sha1:rdf_cksum` of the provided graph
together with the base types — the checksum is computed before the
created/lastModified timestamps (and the digest triple itself) are set,
so those server-managed triples are not part of the checksummed
content. -/
theorem digest_is_cksum_of_pre_timestamp_graph (create : Bool)
    (urn ts : Term) (g : Finset Triple) (o : Term) :
    (urn, premis_hasMessageDigest, o) ∈ add_srv_mgd_triples create urn ts g
      ↔ o = .sha1 (rdf_cksum (g ∪ baseTypeTriples urn)) := by
  cases create <;>
    simp [add_srv_mgd_triples, rsrcSet, predOf,
      premis_hasMessageDigest, fcrepo_created, fcrepo_createdBy,
      fcrepo_lastModified, fcrepo_lastModifiedBy]

/-- Subjects of a `Resource.set` result: the resource URN, plus every
other subject of the original graph. -/
theorem subjects_rsrcSet (urn p o s : Term) (h : Finset Triple) :
    s ∈ subjectsOf (rsrcSet urn p o h)
      ↔ s = urn ∨ (s ∈ subjectsOf h ∧ ¬ s = urn) := by
  simp only [subjectsOf, rsrcSet, Finset.image_union, Finset.mem_union,
    Finset.mem_image, Finset.mem_filter, Finset.image_singleton,
    Finset.mem_singleton]
  constructor
  · rintro (⟨t, ⟨ht, _⟩, rfl⟩ | rfl)
    · by_cases hc : t.1 = urn
      · exact Or.inl hc
      · exact Or.inr ⟨⟨t, ht, rfl⟩, hc⟩
    · exact Or.inl rfl
  · rintro (rfl | ⟨⟨t, ht, rfl⟩, hne⟩)
    · exact Or.inr rfl
    · exact Or.inl ⟨t, ⟨ht, fun hp => hne hp.1⟩, rfl⟩

/-- Subjects of the base-type triples: only the resource URN. -/
theorem subjects_baseTypeTriples (urn s : Term) :
    s ∈ subjectsOf (baseTypeTriples urn) ↔ s = urn := by
  simp [subjectsOf, baseTypeTriples]

/-- Subjects of a union of graphs. -/
theorem subjects_union (a b : Finset Triple) (s : Term) :
    s ∈ subjectsOf (a ∪ b) ↔ s ∈ subjectsOf a ∨ s ∈ subjectsOf b := by
  simp [subjectsOf, Finset.image_union]

/-- Subjects after `_add_srv_mgd_triples`: the resource URN plus every
other subject of the provided graph — no foreign subject is introduced or
removed. -/
theorem subjects_add_srv_mgd (create : Bool) (urn ts s : Term)
    (g : Finset Triple) :
    s ∈ subjectsOf (add_srv_mgd_triples create urn ts g)
      ↔ s = urn ∨ (s ∈ subjectsOf g ∧ ¬ s = urn) := by
  cases create <;>
    simp only [add_srv_mgd_triples, Bool.false_eq_true, ite_false,
      ite_true, subjects_rsrcSet, subjects_union,
      subjects_baseTypeTriples] <;>
    tauto

/-- The offending-subject set is unchanged by `_add_srv_mgd_triples`,
provided the resource URN itself carries no hash fragment. -/
theorem offenders_add_srv_mgd (create : Bool) (urn ts : Term)
    (g : Finset Triple) (hurn : stripFrag urn = urn) :
    offendersOf urn (add_srv_mgd_triples create urn ts g)
      = offendersOf urn g := by
  ext s
  simp only [offendersOf, Finset.mem_filter, subjects_add_srv_mgd]
  constructor
  · rintro ⟨rfl | ⟨hs, _⟩, hbad⟩
    · exact absurd hurn hbad
    · exact ⟨hs, hbad⟩
  · rintro ⟨hs, hbad⟩
    refine ⟨Or.inr ⟨hs, fun he => ?_⟩, hbad⟩
    exact hbad (he ▸ hurn)

/-- C8 counterexample: on a provided graph whose only subject is foreign
to the resource URN, `_create_or_replace_rsrc` raises
`SingleSubjectError` — but only after `_add_srv_mgd_triples` has run, so
the base types, the digest and the create timestamp are already in the
provided graph when the error is raised, contradicting the claim that the
check runs before any of them is added. -/
theorem single_subject_check_order_counterexample :
    create_or_replace_front true (fcres "x") (.lit "t0") provC8
      = .error ({.iri .ext "bad"},
          add_srv_mgd_triples true (fcres "x") (.lit "t0") provC8)
    ∧ (fcres "x", rdf_type, fcrepo_Resource)
        ∈ add_srv_mgd_triples true (fcres "x") (.lit "t0") provC8
    ∧ (fcres "x", fcrepo_created, .lit "t0")
        ∈ add_srv_mgd_triples true (fcres "x") (.lit "t0") provC8
    ∧ (fcres "x", premis_hasMessageDigest,
        Term.sha1 (rdf_cksum (provC8 ∪ baseTypeTriples (fcres "x"))))
        ∈ add_srv_mgd_triples true (fcres "x") (.lit "t0") provC8 := by
  decide

/-- C8 amended: the single-subject check runs on the provided graph after
the server-managed triples are added; since `_add_srv_mgd_triples`
touches only the resource URN as a subject, a `SingleSubjectError` is
raised exactly when the original provided graph has an offending subject
— but at that point the base types, digest and timestamps are already in
the graph (the error value carries the graph in its mutated state). -/
theorem single_subject_checked_after_srv_mgd (create : Bool)
    (urn ts : Term) (g : Finset Triple) (hurn : stripFrag urn = urn) :
    (¬ offendersOf urn g = ∅ →
      create_or_replace_front create urn ts g
        = .error (offendersOf urn g, add_srv_mgd_triples create urn ts g))
    ∧ (offendersOf urn g = ∅ →
      create_or_replace_front create urn ts g
        = .ok (add_srv_mgd_triples create urn ts g
            ∪ fragTriples (add_srv_mgd_triples create urn ts g))) := by
  have hoff := offenders_add_srv_mgd create urn ts g hurn
  constructor
  · intro hne
    simp [create_or_replace_front, ensure_single_subject_rdf, hoff, hne]
  · intro he
    simp [create_or_replace_front, ensure_single_subject_rdf, hoff, he]

/-- C8 amended witness: the theorem instantiated on the concrete offending
graph. -/
theorem single_subject_checked_after_srv_mgd_witness :
    create_or_replace_front true (fcres "x") (.lit "t0") provC8
      = .error (offendersOf (fcres "x") provC8,
          add_srv_mgd_triples true (fcres "x") (.lit "t0") provC8) :=
  (single_subject_checked_after_srv_mgd true (fcres "x") (.lit "t0") provC8
    (by decide)).1 (by decide)

/-- Globalization never produces a `premis:` URI it was not given: the
rewrite only maps `fcres:` URIs and `fcsystem:root` to external URIs. -/
theorem globalizeTerm_premis (w : String) (nm : String) (p : Term) :
    globalizeTerm w p = .iri .premis nm ↔ p = .iri .premis nm := by
  cases p with
  | iri ns nm₂ =>
    cases ns <;> first
      | (simp [globalizeTerm]; done)
      | (simp only [globalizeTerm]; split_ifs <;> simp)
  | lit v => simp [globalizeTerm]
  | sha1 m => simp [globalizeTerm]

/-- Globalization never produces an `fcrepo:` URI it was not given. -/
theorem globalizeTerm_fcrepo (w : String) (nm : String) (p : Term) :
    globalizeTerm w p = .iri .fcrepo nm ↔ p = .iri .fcrepo nm := by
  cases p with
  | iri ns nm₂ =>
    cases ns <;> first
      | (simp [globalizeTerm]; done)
      | (simp only [globalizeTerm]; split_ifs <;> simp)
  | lit v => simp [globalizeTerm]
  | sha1 m => simp [globalizeTerm]

/-- C10: the globalized graph returned by `get` never contains a triple
whose predicate is `premis:hasMessageDigest` or `fcrepo:hasVersion`, and
when server-managed output is requested every other triple of the
in-memory resource appears (globalized) in the result. -/
theorem get_excludes_digest_and_version (w : String) (imr : Finset Triple)
    (srvP srvT : Finset Term) :
    (∀ t ∈ ldpr_get w imr true srvP srvT,
      ¬ predOf t = premis_hasMessageDigest
      ∧ ¬ predOf t = fcrepo_hasVersion)
    ∧ (∀ t ∈ imr,
        ¬ predOf t = premis_hasMessageDigest →
        ¬ predOf t = fcrepo_hasVersion →
        globalizeTriple w t ∈ ldpr_get w imr true srvP srvT) := by
  constructor
  · intro t ht
    simp only [ldpr_get, globalize_graph, Finset.mem_image] at ht
    obtain ⟨t₀, ht₀, rfl⟩ := ht
    simp only [out_graph, Finset.mem_filter, Finset.mem_insert,
      Finset.mem_singleton] at ht₀
    obtain ⟨_, hnd, _⟩ := ht₀
    push_neg at hnd
    constructor
    · show ¬ globalizeTerm w (predOf t₀) = premis_hasMessageDigest
      rw [premis_hasMessageDigest, globalizeTerm_premis]
      exact fun h => hnd.1 (by rw [predOf] at h ⊢; rw [h]; rfl)
    · show ¬ globalizeTerm w (predOf t₀) = fcrepo_hasVersion
      rw [fcrepo_hasVersion, globalizeTerm_fcrepo]
      exact fun h => hnd.2 (by rw [predOf] at h ⊢; rw [h]; rfl)
  · intro t ht h₁ h₂
    simp only [ldpr_get, globalize_graph, Finset.mem_image]
    refine ⟨t, ?_, rfl⟩
    simp only [out_graph, Finset.mem_filter, Finset.mem_insert,
      Finset.mem_singleton]
    refine ⟨ht, ?_, Or.inl trivial⟩
    push_neg
    exact ⟨fun h => h₁ (by rw [h]), fun h => h₂ (by rw [h])⟩

/-- C10 witness: on a concrete IMR holding a user triple, a digest triple
and a version triple, the user triple survives globalized and its
predicate is neither excluded one. -/
theorem get_excludes_digest_and_version_witness :
    globalizeTriple "http://w" (fcres "x", .iri .ext "p", .lit "v")
      ∈ ldpr_get "http://w" imrC10 true ∅ ∅
    ∧ (¬ predOf (globalizeTriple "http://w"
          (fcres "x", .iri .ext "p", .lit "v")) = premis_hasMessageDigest
      ∧ ¬ predOf (globalizeTriple "http://w"
          (fcres "x", .iri .ext "p", .lit "v")) = fcrepo_hasVersion) := by
  have h := get_excludes_digest_and_version "http://w" imrC10 ∅ ∅
  have hm := h.2 (fcres "x", .iri .ext "p", .lit "v")
    (by decide) (by decide) (by decide)
  exact ⟨hm, h.1 _ hm⟩

/-- C9: the delta deduplication `dedup_deltas(a, b) = (a − b, b − a)` is
idempotent: applying it to its own output returns the same pair. -/
theorem dedup_deltas_idempotent (a b : Finset Triple) :
    dedup_deltas (dedup_deltas a b).1 (dedup_deltas a b).2
      = dedup_deltas a b := by
  simp only [dedup_deltas, Prod.mk.injEq]
  constructor <;> ext x <;> simp only [Finset.mem_sdiff] <;> tauto
